import Mathlib

/-
Verification of the core of `bsondump` (mongo-tools-rs): the record-framing
reader in `src/bsondump/src/docbytes.rs` (RecordStream), the byte-size
oracle in `src/bsondump/src/bytes.rs` (SizeOracle / `CountBytes`), and the
structural walker in `src/bsondump/src/lib.rs` (`debug_document` /
`debug_item` / `debug_array`).

The input source (`R: Read` in the Rust code) is modelled as a list of read
events: each event is either one byte delivered to the reader, or a
non-end-of-file read failure.  The end of the list is end of file.
`readExact` models `std::io::Read::read_exact`: it fills a buffer of the
requested length, returning an `unexpectedEof`-kind error when the source
runs out of events before the buffer is full, and propagating a failure
event as a non-EOF error.  The reader position after a call is the list of
events not yet consumed.
-/

namespace Bsondump

/-- Kind of a read failure, mirroring the only distinction
`Source::next` makes on `std::io::ErrorKind`: `UnexpectedEof` vs anything
else. -/
inductive IOKind where
  | unexpectedEof
  | other
deriving DecidableEq

/-- One event of the underlying byte source: a delivered byte, or a
non-EOF read failure. -/
inductive ReadEvent where
  | byte (b : Nat)
  | fail
deriving DecidableEq

/-- `std::io::Read::read_exact` on the event-list model: gather `n` bytes;
end of the list before `n` bytes is an `unexpectedEof` error, a `fail`
event is a non-EOF error.  Returns the result together with the remaining
(unconsumed) events. -/
def readExact : Nat → List ReadEvent → Except IOKind (List Nat) × List ReadEvent
  | 0, r => (.ok [], r)
  | _ + 1, [] => (.error .unexpectedEof, [])
  | n + 1, .byte b :: r =>
    match readExact n r with
    | (.ok bs, r') => (.ok (b :: bs), r')
    | (.error k, r') => (.error k, r')
  | _ + 1, .fail :: r => (.error .other, r)

/-- `enum Error` of docbytes.rs.  `IOError` keeps only the error kind of the
wrapped `std::io::Error`.  `TooSmallError` carries a `u8` (hence `% 256` at
the construction site), `TooLargeError` a `u32`. -/
inductive Error where
  | IOError (k : IOKind)
  | TooSmallError (n : Nat)
  | TooLargeError (n : Nat)
deriving DecidableEq

/-- `struct BsonBytes { size: u32, bytes: Vec<u8> }`. -/
structure BsonBytes where
  size : Nat
  bytes : List Nat
deriving DecidableEq

/-- `const MAX_BSON_SIZE: u32 = (16 * 1024 * 1024) + (16 * 1024)` (16793600). -/
def MAX_BSON_SIZE : Nat := 16 * 1024 * 1024 + 16 * 1024

/-- `const MIN_BSON_SIZE: u32 = 5`. -/
def MIN_BSON_SIZE : Nat := 5

/-- The unsigned little-endian value of a byte list (least significant byte
first); each entry is reduced `% 256` since Rust bytes are `u8`. -/
def u32OfLe (bytes : List Nat) : Nat :=
  bytes.foldr (fun b acc => b % 256 + 256 * acc) 0

/-- `i32::from_le_bytes`: the signed two's-complement reading of the 4-byte
little-endian value. -/
def i32OfLe (bytes : List Nat) : Int :=
  if u32OfLe bytes < 2 ^ 31 then (u32OfLe bytes : Int)
  else (u32OfLe bytes : Int) - 2 ^ 32

/-- The Rust cast `as u32` applied to an `i32`: reinterpret the
two's-complement bit pattern, i.e. reduce modulo `2 ^ 32`. -/
def i32AsU32 (x : Int) : Nat := (x % 2 ^ 32).toNat

/-- `let size = i32::from_le_bytes(size_bytes) as u32` of `Source::next`. -/
def declaredSize (sizeBytes : List Nat) : Nat := i32AsU32 (i32OfLe sizeBytes)

/-- `Source::next` of docbytes.rs.  Reads the 4 size-prefix bytes
(`UnexpectedEof` there is treated as clean end of stream, `none`), checks
the declared size against `MIN_BSON_SIZE` and `MAX_BSON_SIZE`
(`TooSmallError` narrows the size to `u8`), then reads the
`size - 4` body bytes (any failure there, EOF included, is an `IOError`)
and yields the concatenation of size prefix and body.  The second
component is the reader after the call. -/
def next (reader : List ReadEvent) : Option (Except Error BsonBytes) × List ReadEvent :=
  match readExact 4 reader with
  | (.error .unexpectedEof, reader') => (none, reader')
  | (.error k, reader') => (some (.error (.IOError k)), reader')
  | (.ok sizeBytes, reader') =>
    let size := declaredSize sizeBytes
    if size < MIN_BSON_SIZE then
      (some (.error (.TooSmallError (size % 256))), reader')
    else if size > MAX_BSON_SIZE then
      (some (.error (.TooLargeError size)), reader')
    else
      match readExact (size - 4) reader' with
      | (.error k, reader'') => (some (.error (.IOError k)), reader'')
      | (.ok remainder, reader'') =>
        (some (.ok ⟨size, sizeBytes ++ remainder⟩), reader'')

/-! Helper lemmas about `readExact`, `u32OfLe` and `declaredSize`. -/

theorem readExact_map_byte (l : List Nat) (r : List ReadEvent) :
    readExact l.length (l.map ReadEvent.byte ++ r) = (.ok l, r) := by
  induction l with
  | nil => rfl
  | cons a t ih => simp [readExact, ih]

theorem readExact_ok_length {n : Nat} {r r' : List ReadEvent} {bs : List Nat}
    (h : readExact n r = (.ok bs, r')) : bs.length = n := by
  induction n generalizing r r' bs with
  | zero =>
    simp only [readExact, Prod.mk.injEq] at h
    obtain ⟨h1, -⟩ := h
    injection h1 with h2
    subst h2
    rfl
  | succ n ih =>
    match r with
    | [] => simp [readExact] at h
    | .fail :: rest => simp [readExact] at h
    | .byte b :: rest =>
      simp only [readExact] at h
      cases hrec : readExact n rest with
      | mk res rest' =>
        rw [hrec] at h
        cases res with
        | ok bs' =>
          simp only [Prod.mk.injEq] at h
          obtain ⟨h1, -⟩ := h
          injection h1 with h2
          subst h2
          simp [ih hrec]
        | error k => simp at h

theorem readExact_map_byte_short (l : List Nat) (n : Nat) (h : l.length < n) :
    readExact n (l.map ReadEvent.byte) = (.error .unexpectedEof, []) := by
  induction l generalizing n with
  | nil =>
    match n with
    | 0 => omega
    | m + 1 => rfl
  | cons a t ih =>
    match n with
    | 0 => omega
    | m + 1 =>
      have ht : t.length < m := by simpa using h
      simp [readExact, ih m ht]

theorem u32OfLe_quad (a b c d : Nat) :
    u32OfLe [a, b, c, d] =
      a % 256 + 256 * (b % 256) + 65536 * (c % 256) + 16777216 * (d % 256) := by
  simp [u32OfLe, List.foldr]
  ring

theorem u32OfLe_quad_lt (a b c d : Nat) : u32OfLe [a, b, c, d] < 2 ^ 32 := by
  rw [u32OfLe_quad]
  have ha := Nat.mod_lt a (show 0 < 256 by norm_num)
  have hb := Nat.mod_lt b (show 0 < 256 by norm_num)
  have hc := Nat.mod_lt c (show 0 < 256 by norm_num)
  have hd := Nat.mod_lt d (show 0 < 256 by norm_num)
  omega

theorem declaredSize_eq_u32 (sb : List Nat) (h : u32OfLe sb < 2 ^ 32) :
    declaredSize sb = u32OfLe sb := by
  unfold declaredSize i32AsU32 i32OfLe
  split <;> omega

theorem declaredSize_quad_eq (a b c d : Nat) :
    declaredSize [a, b, c, d] = u32OfLe [a, b, c, d] :=
  declaredSize_eq_u32 _ (u32OfLe_quad_lt a b c d)

/-- Unfolding of `next` once the size-prefix read is known to succeed. -/
theorem next_eq_of_readExact4 {r r' : List ReadEvent} {sb : List Nat}
    (h : readExact 4 r = (.ok sb, r')) :
    next r =
      (if declaredSize sb < MIN_BSON_SIZE then
        (some (.error (.TooSmallError (declaredSize sb % 256))), r')
      else if declaredSize sb > MAX_BSON_SIZE then
        (some (.error (.TooLargeError (declaredSize sb))), r')
      else
        match readExact (declaredSize sb - 4) r' with
        | (.error k, reader'') => (some (.error (.IOError k)), reader'')
        | (.ok remainder, reader'') =>
          (some (.ok ⟨declaredSize sb, sb ++ remainder⟩), reader'')) := by
  unfold next
  rw [h]

/-! Claim theorems about RecordStream (`Source::next`). -/

/-- C8 (confirmed): on the empty input source the first poll of
`Source::next` yields clean end of stream (`none`), not an error. -/
theorem next_empty_source_clean_eof : next [] = (none, []) := rfl

/-- C1 counterexample: on a source holding exactly 3 bytes (a partial
size-prefix read), `Source::next` yields clean end of stream (`none`),
never an I/O error — refuting the claim at this concrete input. -/
theorem next_truncated_prefix_counterexample :
    (next [ReadEvent.byte 5, .byte 0, .byte 0]).1 = none ∧
    ∀ e : Error, (next [ReadEvent.byte 5, .byte 0, .byte 0]).1 ≠ some (.error e) := by
  refine ⟨rfl, fun e h => ?_⟩
  rw [show (next [ReadEvent.byte 5, .byte 0, .byte 0]).1 = none from rfl] at h
  exact Option.noConfusion h

/-- C1 (amended): for every source whose data ends after 1 to 3 bytes of
the size prefix (a partial read at end of stream, with no read failure),
`Source::next` yields clean end of stream, exactly as for an empty source:
`read_exact` reports the partial read as `UnexpectedEof` and `next` maps
every `UnexpectedEof` on the size read to `None`. -/
theorem next_truncated_prefix_clean_eof (pre : List Nat)
    (_h1 : 1 ≤ pre.length) (h2 : pre.length < 4) :
    next (pre.map ReadEvent.byte) = (none, []) := by
  unfold next
  rw [readExact_map_byte_short pre 4 h2]

/-- C1 witness: the amended statement at the concrete 3-byte source. -/
theorem next_truncated_prefix_clean_eof_witness :
    next (List.map ReadEvent.byte [5, 0, 0]) = (none, []) :=
  next_truncated_prefix_clean_eof [5, 0, 0] (by decide) (by decide)

/-- C2 counterexample: a source whose first record has declared size 0
followed by a well-formed 5-byte record.  The first poll yields a
too-small error, yet the second poll yields a successful record —
refuting the claim that no successful record follows an error. -/
theorem next_error_then_success_counterexample :
    (next [ReadEvent.byte 0, .byte 0, .byte 0, .byte 0,
           .byte 5, .byte 0, .byte 0, .byte 0, .byte 0]).1
        = some (.error (.TooSmallError 0)) ∧
    (next (next [ReadEvent.byte 0, .byte 0, .byte 0, .byte 0,
                 .byte 5, .byte 0, .byte 0, .byte 0, .byte 0]).2).1
        = some (.ok ⟨5, [5, 0, 0, 0, 0]⟩) :=
  ⟨rfl, rfl⟩

/-- C2 (amended): `Source::next` keeps no error state.  After a size-bound
error the reader is left exactly at the bytes following the rejected
4-byte prefix, so a further poll parses them afresh and can yield further
successful records; treating an error as a stop condition is the caller's
obligation (as `main.rs` does by exiting), not enforced by the producer. -/
theorem next_size_error_leaves_tail (tail : List ReadEvent) :
    next (List.map ReadEvent.byte [0, 0, 0, 0] ++ tail)
      = (some (.error (.TooSmallError 0)), tail) := by
  have h4 := readExact_map_byte [0, 0, 0, 0] tail
  rw [next_eq_of_readExact4 h4]
  rfl

/-- C4 (confirmed): for every record whose declared size (little-endian
signed 32-bit, reinterpreted as unsigned) is below 5, `Source::next`
yields `TooSmallError` reporting the declared size narrowed to 8 bits
(`size as u8`, i.e. `% 256`). -/
theorem next_too_small_reports_truncated (b0 b1 b2 b3 : Nat) (rest : List ReadEvent)
    (h : declaredSize [b0, b1, b2, b3] < 5) :
    next (List.map ReadEvent.byte [b0, b1, b2, b3] ++ rest)
      = (some (.error (.TooSmallError (declaredSize [b0, b1, b2, b3] % 256))), rest) := by
  have h4 := readExact_map_byte [b0, b1, b2, b3] rest
  rw [next_eq_of_readExact4 h4]
  rw [if_pos (by simpa [MIN_BSON_SIZE] using h)]

/-- C4 witness: declared size exactly 4 yields `TooSmallError` reporting 4. -/
theorem next_too_small_reports_truncated_witness :
    next (List.map ReadEvent.byte [4, 0, 0, 0] ++ [])
      = (some (.error (.TooSmallError (declaredSize [4, 0, 0, 0] % 256))), []) :=
  next_too_small_reports_truncated 4 0 0 0 [] (by decide)

/-- C9 (confirmed): a size prefix whose little-endian signed 32-bit value
is negative is reinterpreted as an unsigned value of at least `2 ^ 31`,
which exceeds the ceiling, so `Source::next` yields `TooLargeError`
reporting that reinterpreted unsigned value and consumes nothing beyond
the 4 prefix bytes (no body read of that size is attempted). -/
theorem next_negative_size_too_large (b0 b1 b2 b3 : Nat) (rest : List ReadEvent)
    (hneg : i32OfLe [b0, b1, b2, b3] < 0) :
    2 ^ 31 ≤ declaredSize [b0, b1, b2, b3] ∧
    next (List.map ReadEvent.byte [b0, b1, b2, b3] ++ rest)
      = (some (.error (.TooLargeError (declaredSize [b0, b1, b2, b3]))), rest) := by
  have hlt := u32OfLe_quad_lt b0 b1 b2 b3
  have hds := declaredSize_quad_eq b0 b1 b2 b3
  have hge : 2 ^ 31 ≤ u32OfLe [b0, b1, b2, b3] := by
    unfold i32OfLe at hneg
    split at hneg <;> omega
  refine ⟨by omega, ?_⟩
  have h4 := readExact_map_byte [b0, b1, b2, b3] rest
  rw [next_eq_of_readExact4 h4]
  rw [if_neg (by simp only [MIN_BSON_SIZE]; omega)]
  rw [if_pos (by simp only [MAX_BSON_SIZE]; omega)]

/-- C9 witness: the prefix `[0, 0, 0, 128]` (signed value `-2 ^ 31`). -/
theorem next_negative_size_too_large_witness :
    2 ^ 31 ≤ declaredSize [0, 0, 0, 128] ∧
    next (List.map ReadEvent.byte [0, 0, 0, 128] ++ [])
      = (some (.error (.TooLargeError (declaredSize [0, 0, 0, 128]))), []) :=
  next_negative_size_too_large 0 0 0 128 [] (by decide)

/-- C3 (confirmed): a record with declared size exactly 16793600
(`MAX_BSON_SIZE`) whose body bytes are available is yielded successfully,
while a declared size of exactly 16793601 yields `TooLargeError`
reporting exactly 16793601. -/
theorem next_max_size_boundary (b0 b1 b2 b3 c0 c1 c2 c3 : Nat) (body : List Nat)
    (rest tail : List ReadEvent)
    (hmax : declaredSize [b0, b1, b2, b3] = 16793600)
    (hbody : body.length = 16793596)
    (hover : declaredSize [c0, c1, c2, c3] = 16793601) :
    next (List.map ReadEvent.byte ([b0, b1, b2, b3] ++ body) ++ rest)
      = (some (.ok ⟨16793600, [b0, b1, b2, b3] ++ body⟩), rest) ∧
    next (List.map ReadEvent.byte [c0, c1, c2, c3] ++ tail)
      = (some (.error (.TooLargeError 16793601)), tail) := by
  constructor
  · have h4 : readExact 4 (List.map ReadEvent.byte ([b0, b1, b2, b3] ++ body) ++ rest)
        = (.ok [b0, b1, b2, b3], List.map ReadEvent.byte body ++ rest) := by
      have h := readExact_map_byte [b0, b1, b2, b3] (List.map ReadEvent.byte body ++ rest)
      simpa [List.append_assoc] using h
    rw [next_eq_of_readExact4 h4, hmax]
    rw [if_neg (by simp [MIN_BSON_SIZE])]
    rw [if_neg (by simp [MAX_BSON_SIZE])]
    have hb : readExact (16793600 - 4) (List.map ReadEvent.byte body ++ rest)
        = (.ok body, rest) := by
      have h := readExact_map_byte body rest
      rw [hbody] at h
      exact h
    rw [hb]
  · have h4 := readExact_map_byte [c0, c1, c2, c3] tail
    rw [next_eq_of_readExact4 h4, hover]
    rw [if_neg (by simp [MIN_BSON_SIZE])]
    rw [if_pos (by simp [MAX_BSON_SIZE])]

/-- C3 witness: prefix `[0, 64, 0, 1]` (16793600) with an all-zero body of
16793596 bytes succeeds; prefix `[1, 64, 0, 1]` (16793601) yields the
too-large error reporting 16793601. -/
theorem next_max_size_boundary_witness :
    next (List.map ReadEvent.byte ([0, 64, 0, 1] ++ List.replicate 16793596 0) ++ [])
      = (some (.ok ⟨16793600, [0, 64, 0, 1] ++ List.replicate 16793596 0⟩), []) ∧
    next (List.map ReadEvent.byte [1, 64, 0, 1] ++ [])
      = (some (.error (.TooLargeError 16793601)), []) :=
  next_max_size_boundary 0 64 0 1 1 64 0 1 (List.replicate 16793596 0) [] []
    (by decide) (List.length_replicate 16793596 0) (by decide)

/-- C7 (confirmed): every record `Source::next` yields successfully is the
concatenation of the 4 size-prefix bytes with the body bytes read after
them; its total length equals the declared size, and the declared size
equals 4 plus the number of body bytes read. -/
theorem next_success_record_shape (r r' : List ReadEvent) (rec : BsonBytes)
    (h : next r = (some (.ok rec), r')) :
    ∃ sb rmid body,
      readExact 4 r = (.ok sb, rmid) ∧
      readExact (rec.size - 4) rmid = (.ok body, r') ∧
      rec.bytes = sb ++ body ∧
      rec.bytes.length = rec.size ∧
      rec.size = 4 + body.length := by
  unfold next at h
  cases h4 : readExact 4 r with
  | mk res4 rmid =>
    rw [h4] at h
    cases res4 with
    | error k => cases k <;> simp at h
    | ok sb =>
      have hsb : sb.length = 4 := readExact_ok_length h4
      simp only [] at h
      split at h
      · simp at h
      · rename_i hmin
        split at h
        · simp at h
        · cases hbody : readExact (declaredSize sb - 4) rmid with
          | mk resb r2 =>
            rw [hbody] at h
            cases resb with
            | error k => simp at h
            | ok remainder =>
              simp only [Prod.mk.injEq, Option.some.injEq] at h
              obtain ⟨h1, h2⟩ := h
              injection h1 with h1
              subst h2
              subst h1
              have hrem : remainder.length = declaredSize sb - 4 :=
                readExact_ok_length hbody
              have hge : MIN_BSON_SIZE ≤ declaredSize sb := Nat.le_of_not_lt hmin
              simp only [MIN_BSON_SIZE] at hge
              refine ⟨sb, rmid, remainder, rfl, hbody, rfl, ?_, ?_⟩
              · simp only [BsonBytes.size, BsonBytes.bytes, List.length_append, hsb, hrem]
                omega
              · simp only [BsonBytes.size]
                omega

/-- C7 witness: the minimal 5-byte record `[5, 0, 0, 0, 0]`. -/
theorem next_success_record_shape_witness :
    ∃ sb rmid body,
      readExact 4 (List.map ReadEvent.byte [5, 0, 0, 0, 0]) = (.ok sb, rmid) ∧
      readExact ((5 : Nat) - 4) rmid = (.ok body, []) ∧
      ([5, 0, 0, 0, 0] : List Nat) = sb ++ body ∧
      ([5, 0, 0, 0, 0] : List Nat).length = 5 ∧
      (5 : Nat) = 4 + body.length :=
  next_success_record_shape (List.map ReadEvent.byte [5, 0, 0, 0, 0]) []
    ⟨5, [5, 0, 0, 0, 0]⟩ rfl

/-- C10 (confirmed): whenever `Source::next` yields `TooSmallError`, the
declared size (of the 4 prefix bytes just read) is below 5, so the
reported 8-bit value equals the true declared size — the `u8` narrowing
is lossless and the wrap-around for sizes of 256 or more is unreachable. -/
theorem next_too_small_lossless (r r' : List ReadEvent) (n : Nat)
    (h : next r = (some (.error (.TooSmallError n)), r')) :
    ∃ sb, readExact 4 r = (.ok sb, r') ∧ declaredSize sb < 5 ∧
      n = declaredSize sb := by
  unfold next at h
  cases h4 : readExact 4 r with
  | mk res4 rmid =>
    rw [h4] at h
    cases res4 with
    | error k => cases k <;> simp at h
    | ok sb =>
      simp only [] at h
      split at h
      · rename_i hmin
        simp only [MIN_BSON_SIZE] at hmin
        simp only [Prod.mk.injEq, Option.some.injEq] at h
        obtain ⟨h1, h2⟩ := h
        injection h1 with h1
        injection h1 with h1
        subst h2
        exact ⟨sb, rfl, hmin, by omega⟩
      · split at h
        · simp at h
        · cases hbody : readExact (declaredSize sb - 4) rmid with
          | mk resb r2 =>
            rw [hbody] at h
            cases resb <;> simp at h

/-- C10 witness: the prefix `[4, 0, 0, 0]` — the reported value 4 is the
true declared size. -/
theorem next_too_small_lossless_witness :
    ∃ sb, readExact 4 (List.map ReadEvent.byte [4, 0, 0, 0]) = (.ok sb, []) ∧
      declaredSize sb < 5 ∧ (4 : Nat) = declaredSize sb :=
  next_too_small_lossless (List.map ReadEvent.byte [4, 0, 0, 0]) [] 4 rfl


/-!
Embedding of bytes.rs (SizeOracle / `CountBytes`) and the structural
walker of lib.rs (`debug_document`, `debug_item`, `debug_array`,
`new_object_header`).

`RawBsonRef` mirrors `bson::RawBsonRef` as the walker and the size oracle
consume it: each variant keeps exactly the data those functions read.
`Document` and `Array` carry the length of their raw byte span
(`as_bytes().len()`) together with the decoded sequence of elements the
external bson crate's iterator presents, in the order the fields appear in
the document's bytes; `JavaScriptCodeWithScope` keeps the code string and
the scope document's span (`cws.scope.count_bytes()` reads only the span);
`Binary` keeps its payload bytes; `Decimal128`'s `dec.bytes()` is a
`[u8; 16]`, so its size is the constant 16.  Scalar payloads that neither
function inspects are dropped.  Field names and strings are Lean `String`s;
Rust's `str::len` (UTF-8 byte length) is `String.utf8ByteSize`.
`elementType` is `bson_ref.element_type() as u8`: the BSON spec tag byte
returned by the external bson crate.

The output sink (`writer` plus `writeln!`) is modelled as a buffer of
structured lines, appended in write order; each `Line` constructor
records the indentation level and the data interpolated by the
corresponding `writeln!` in lib.rs.
-/

inductive RawBsonRef where
  | Double
  | String (s : String)
  | Array (span : Nat) (elems : List RawBsonRef)
  | Document (span : Nat) (fields : List (String × RawBsonRef))
  | Boolean
  | Null
  | RegularExpression (pattern : String) (options : String)
  | JavaScriptCode (code : String)
  | JavaScriptCodeWithScope (code : String) (scopeSpan : Nat)
  | Int32
  | Int64
  | Timestamp
  | Binary (payload : List Nat)
  | ObjectId
  | DateTime
  | Symbol (s : String)
  | Decimal128
  | Undefined
  | MaxKey
  | MinKey
  | DbPointer

def strCountBytes (s : String) : Nat := 4 + s.utf8ByteSize + 1

def countBytes : RawBsonRef → Nat
  | .Double => 8
  | .String s => strCountBytes s
  | .Array span _ => span
  | .Document span _ => span
  | .Boolean => 1
  | .Null => 0
  | .RegularExpression pattern options => strCountBytes pattern + strCountBytes options
  | .JavaScriptCode code => strCountBytes code
  | .JavaScriptCodeWithScope code scopeSpan => strCountBytes code + scopeSpan
  | .Int32 => 4
  | .Int64 => 8
  | .Timestamp => 8
  | .Binary payload => 4 + 1 + payload.length
  | .ObjectId => 12
  | .DateTime => 8
  | .Symbol s => strCountBytes s
  | .Decimal128 => 16
  | .Undefined => 0
  | .MaxKey => 0
  | .MinKey => 0
  | .DbPointer => strCountBytes "" + 12

def elementType : RawBsonRef → Nat
  | .Double => 1
  | .String _ => 2
  | .Document _ _ => 3
  | .Array _ _ => 4
  | .Binary _ => 5
  | .Undefined => 6
  | .ObjectId => 7
  | .Boolean => 8
  | .DateTime => 9
  | .Null => 10
  | .RegularExpression _ _ => 11
  | .DbPointer => 12
  | .JavaScriptCode _ => 13
  | .Symbol _ => 14
  | .JavaScriptCodeWithScope _ _ => 15
  | .Int32 => 16
  | .Timestamp => 17
  | .Int64 => 18
  | .Decimal128 => 19
  | .MaxKey => 127
  | .MinKey => 255

inductive Line where
  | objectHeader (indent : Nat)
  | sizeLine (indent : Nat) (size : Nat)
  | fieldName (indent : Nat) (name : String)
  | typeSize (indent : Nat) (tag : Nat) (size : Nat)

def newObjectHeader (buf : List Line) (size : Nat) (il : Nat) : List Line :=
  buf ++ [.objectHeader il, .sizeLine (il + 1) size]

mutual

def debugItem (buf : List Line) (name : String) (v : RawBsonRef) (il : Nat) : List Line :=
  let buf1 := buf ++ [.fieldName (il + 2) name]
  let buf2 := buf1 ++ [.typeSize (il + 3) (elementType v)
    (1 + (name.utf8ByteSize + 1) + countBytes v)]
  match v with
  | .Document span fields => debugFields (newObjectHeader buf2 span (il + 3)) fields (il + 3)
  | .Array span elems => debugElems (newObjectHeader buf2 span (il + 3)) elems 0 (il + 3)
  | _ => buf2

def debugFields (buf : List Line) (fields : List (String × RawBsonRef)) (il : Nat) : List Line :=
  match fields with
  | [] => buf
  | (name, v) :: rest => debugFields (debugItem buf name v il) rest il

def debugElems (buf : List Line) (elems : List RawBsonRef) (i : Nat) (il : Nat) : List Line :=
  match elems with
  | [] => buf
  | v :: rest => debugElems (debugItem buf (Nat.repr i) v il) rest (i + 1) il

end

def debugDocument (buf : List Line) (span : Nat) (fields : List (String × RawBsonRef))
    (il : Nat) : List Line :=
  debugFields (newObjectHeader buf span il) fields il

def nameProj (ind : Nat) : Line → Option String
  | .fieldName i n => if i = ind then some n else none
  | _ => none

def tsProj (ind : Nat) : Line → Option (Nat × Nat)
  | .typeSize i t s => if i = ind then some (t, s) else none
  | _ => none

def indentFloor (il : Nat) : Line → Prop
  | .fieldName i _ => il + 2 ≤ i
  | .typeSize i _ _ => il + 3 ≤ i
  | .objectHeader _ => True
  | .sizeLine _ _ => True

theorem indentFloor_mono {il il' : Nat} (h : il ≤ il') {l : Line}
    (hl : indentFloor il' l) : indentFloor il l := by
  cases l <;> simp [indentFloor] at hl ⊢ <;> omega

theorem nameProj_eq_none {il : Nat} {l : Line} (h : indentFloor (il + 3) l) :
    nameProj (il + 2) l = none := by
  cases l with
  | fieldName i nm =>
    simp [indentFloor] at h
    simp [nameProj]
    omega
  | objectHeader i => rfl
  | sizeLine i s => rfl
  | typeSize i t s => rfl

theorem tsProj_eq_none {il : Nat} {l : Line} (h : indentFloor (il + 3) l) :
    tsProj (il + 3) l = none := by
  cases l with
  | typeSize i t s =>
    simp [indentFloor] at h
    simp [tsProj]
    omega
  | objectHeader i => rfl
  | sizeLine i s => rfl
  | fieldName i nm => rfl

def ItemSpec (v : RawBsonRef) : Prop :=
  ∀ (buf : List Line) (name : String) (il : Nat), ∃ tail : List Line,
    debugItem buf name v il
      = buf ++ [.fieldName (il + 2) name,
          .typeSize (il + 3) (elementType v) (1 + (name.utf8ByteSize + 1) + countBytes v)]
        ++ tail ∧
    ∀ l ∈ tail, indentFloor (il + 3) l

def FieldsSpec (fields : List (String × RawBsonRef)) : Prop :=
  ∀ (buf : List Line) (il : Nat), ∃ out : List Line,
    debugFields buf fields il = buf ++ out ∧
    (∀ l ∈ out, indentFloor il l) ∧
    out.filterMap (nameProj (il + 2)) = fields.map Prod.fst ∧
    out.filterMap (tsProj (il + 3))
      = fields.map (fun f => (elementType f.2, 1 + (f.1.utf8ByteSize + 1) + countBytes f.2))

def ElemsSpec (elems : List RawBsonRef) : Prop :=
  ∀ (buf : List Line) (i il : Nat), ∃ out : List Line,
    debugElems buf elems i il = buf ++ out ∧ ∀ l ∈ out, indentFloor il l

theorem walkerAux : ∀ n : Nat,
    (∀ v : RawBsonRef, sizeOf v ≤ n → ItemSpec v) ∧
    (∀ fields : List (String × RawBsonRef), sizeOf fields ≤ n → FieldsSpec fields) ∧
    (∀ elems : List RawBsonRef, sizeOf elems ≤ n → ElemsSpec elems) := by
  intro n
  induction n using Nat.strong_induction_on with
  | _ n ih =>
    refine ⟨?_, ?_, ?_⟩
    · intro v hv buf name il
      cases v
      case Document span fields =>
        have hlt : sizeOf fields < n := by
          have h := RawBsonRef.Document.sizeOf_spec span fields
          omega
        obtain ⟨out, hout, hfloor, -, -⟩ :=
          (ih _ hlt).2.1 fields (le_refl _)
            (newObjectHeader (buf ++ [.fieldName (il + 2) name,
              .typeSize (il + 3) (elementType (.Document span fields))
                (1 + (name.utf8ByteSize + 1) + countBytes (.Document span fields))])
              span (il + 3)) (il + 3)
        refine ⟨[Line.objectHeader (il + 3), Line.sizeLine (il + 3 + 1) span] ++ out, ?_, ?_⟩
        · rw [show debugItem buf name (.Document span fields) il
            = debugFields (newObjectHeader (buf ++ [.fieldName (il + 2) name,
                .typeSize (il + 3) (elementType (.Document span fields))
                  (1 + (name.utf8ByteSize + 1) + countBytes (.Document span fields))])
                span (il + 3)) fields (il + 3) from by
              simp [debugItem]]
          rw [hout]
          simp [newObjectHeader]
        · intro l hl
          simp only [List.mem_append, List.mem_cons, List.not_mem_nil, or_false] at hl
          rcases hl with (rfl | rfl) | hmem
          · simp [indentFloor]
          · simp [indentFloor]
          · exact hfloor l hmem
      case Array span elems =>
        have hlt : sizeOf elems < n := by
          have h := RawBsonRef.Array.sizeOf_spec span elems
          omega
        obtain ⟨out, hout, hfloor⟩ :=
          (ih _ hlt).2.2 elems (le_refl _)
            (newObjectHeader (buf ++ [.fieldName (il + 2) name,
              .typeSize (il + 3) (elementType (.Array span elems))
                (1 + (name.utf8ByteSize + 1) + countBytes (.Array span elems))])
              span (il + 3)) 0 (il + 3)
        refine ⟨[Line.objectHeader (il + 3), Line.sizeLine (il + 3 + 1) span] ++ out, ?_, ?_⟩
        · rw [show debugItem buf name (.Array span elems) il
            = debugElems (newObjectHeader (buf ++ [.fieldName (il + 2) name,
                .typeSize (il + 3) (elementType (.Array span elems))
                  (1 + (name.utf8ByteSize + 1) + countBytes (.Array span elems))])
                span (il + 3)) elems 0 (il + 3) from by
              simp [debugItem]]
          rw [hout]
          simp [newObjectHeader]
        · intro l hl
          simp only [List.mem_append, List.mem_cons, List.not_mem_nil, or_false] at hl
          rcases hl with (rfl | rfl) | hmem
          · simp [indentFloor]
          · simp [indentFloor]
          · exact hfloor l hmem
      all_goals exact ⟨[], by simp [debugItem], by simp⟩
    · intro fields hf buf il
      cases fields with
      | nil => exact ⟨[], by simp [debugFields], by simp, by simp, by simp⟩
      | cons f rest =>
        obtain ⟨name, v⟩ := f
        have hv : sizeOf v < n := by
          have h1 := List.cons.sizeOf_spec (name, v) rest
          have h2 := Prod.mk.sizeOf_spec name v
          omega
        have hrest : sizeOf rest < n := by
          have h1 := List.cons.sizeOf_spec (name, v) rest
          omega
        obtain ⟨tail, hitem, hfloor1⟩ := (ih _ hv).1 v (le_refl _) buf name il
        obtain ⟨out2, hout2, hfloor2, hn2, ht2⟩ :=
          (ih _ hrest).2.1 rest (le_refl _) (debugItem buf name v il) il
        refine ⟨[Line.fieldName (il + 2) name,
            Line.typeSize (il + 3) (elementType v) (1 + (name.utf8ByteSize + 1) + countBytes v)]
            ++ tail ++ out2, ?_, ?_, ?_, ?_⟩
        · rw [show debugFields buf ((name, v) :: rest) il
            = debugFields (debugItem buf name v il) rest il from by rw [debugFields]]
          rw [hout2, hitem]
          simp
        · intro l hl
          simp only [List.mem_append, List.mem_cons, List.not_mem_nil, or_false] at hl
          rcases hl with (((rfl | rfl) | htl) | ho2)
          · simp [indentFloor]
          · simp [indentFloor]
          · exact indentFloor_mono (by omega) (hfloor1 l htl)
          · exact hfloor2 l ho2
        · have htail : tail.filterMap (nameProj (il + 2)) = [] :=
            List.filterMap_eq_nil_iff.2 fun l hl => nameProj_eq_none (hfloor1 l hl)
          simp only [List.filterMap_append, htail, hn2, List.nil_append]
          simp [nameProj, List.filterMap_cons]
        · have htail : tail.filterMap (tsProj (il + 3)) = [] :=
            List.filterMap_eq_nil_iff.2 fun l hl => tsProj_eq_none (hfloor1 l hl)
          simp only [List.filterMap_append, htail, ht2, List.nil_append]
          simp [tsProj, List.filterMap_cons]
    · intro elems he buf i il
      cases elems with
      | nil => exact ⟨[], by simp [debugElems], by simp⟩
      | cons v rest =>
        have hv : sizeOf v < n := by
          have h1 := List.cons.sizeOf_spec v rest
          omega
        have hrest : sizeOf rest < n := by
          have h1 := List.cons.sizeOf_spec v rest
          omega
        obtain ⟨tail, hitem, hfloor1⟩ := (ih _ hv).1 v (le_refl _) buf (Nat.repr i) il
        obtain ⟨out2, hout2, hfloor2⟩ :=
          (ih _ hrest).2.2 rest (le_refl _) (debugItem buf (Nat.repr i) v il) (i + 1) il
        refine ⟨[Line.fieldName (il + 2) (Nat.repr i),
            Line.typeSize (il + 3) (elementType v)
              (1 + ((Nat.repr i).utf8ByteSize + 1) + countBytes v)]
            ++ tail ++ out2, ?_, ?_⟩
        · rw [show debugElems buf (v :: rest) i il
            = debugElems (debugItem buf (Nat.repr i) v il) rest (i + 1) il from by
              rw [debugElems]]
          rw [hout2, hitem]
          simp
        · intro l hl
          simp only [List.mem_append, List.mem_cons, List.not_mem_nil, or_false] at hl
          rcases hl with (((rfl | rfl) | htl) | ho2)
          · simp [indentFloor]
          · simp [indentFloor]
          · exact indentFloor_mono (by omega) (hfloor1 l htl)
          · exact hfloor2 l ho2

/-- `debug` of lib.rs: walk a whole document at indentation level 0 into an
empty buffer. -/
def debug (span : Nat) (fields : List (String × RawBsonRef)) : List Line :=
  debugDocument [] span fields 0

/-- C5 (confirmed): `CountBytes` computes the size of every string-valued
input — a `String`, `JavaScriptCode` or `Symbol` value, a
`RegularExpression`'s pattern or options, or the code part of
`JavaScriptCodeWithScope` — as 4 (length prefix) + UTF-8 byte length + 1
(null terminator), for every string including the empty string and
strings with multi-byte UTF-8 characters. -/
theorem count_bytes_string_roles (s pat opts code : String) (scopeSpan : Nat) :
    countBytes (.String s) = 4 + s.utf8ByteSize + 1 ∧
    countBytes (.JavaScriptCode s) = 4 + s.utf8ByteSize + 1 ∧
    countBytes (.Symbol s) = 4 + s.utf8ByteSize + 1 ∧
    countBytes (.RegularExpression pat opts)
      = (4 + pat.utf8ByteSize + 1) + (4 + opts.utf8ByteSize + 1) ∧
    countBytes (.JavaScriptCodeWithScope code scopeSpan)
      = (4 + code.utf8ByteSize + 1) + scopeSpan :=
  ⟨rfl, rfl, rfl, rfl, rfl⟩

/-- C6 (confirmed): for every raw document view, `debug_document` emits the
document's fields in exactly the order they appear in the view (the byte
order the external iterator presents), and for each field the reported
size equals 1 (tag byte) + (field name byte length + 1 null terminator) +
`CountBytes` of the field's value.  The document's own field-name lines
are the ones at indentation `il + 2` and its `type/size` lines the ones at
`il + 3`; lines of nested documents and arrays sit strictly deeper. -/
theorem debug_document_fields_order_and_size (span il : Nat)
    (fields : List (String × RawBsonRef)) (buf : List Line) :
    ∃ out : List Line,
      debugDocument buf span fields il = buf ++ out ∧
      out.filterMap (nameProj (il + 2)) = fields.map Prod.fst ∧
      out.filterMap (tsProj (il + 3))
        = fields.map (fun f =>
            (elementType f.2, 1 + (f.1.utf8ByteSize + 1) + countBytes f.2)) := by
  obtain ⟨out, hout, -, hn, ht⟩ :=
    (walkerAux (sizeOf fields)).2.1 fields (le_refl _) (newObjectHeader buf span il) il
  refine ⟨[Line.objectHeader il, Line.sizeLine (il + 1) span] ++ out, ?_, ?_, ?_⟩
  · unfold debugDocument
    rw [hout]
    simp [newObjectHeader]
  · simp only [List.filterMap_append, hn]
    simp [nameProj]
  · simp only [List.filterMap_append, ht]
    simp [tsProj]

end Bsondump

